import Mathlib

/-! Formal model of the Takikawa octree feature encoding
(takikawa_encoding.cuh): the forward interpolation kernel, the
backward-to-parameters scatter kernel, the backward-to-input kernel, and the
encoder's construction, backward driver and hyperparameter reporting.
Device floating-point arithmetic is idealised as exact rational arithmetic;
GPU buffers are total functions from flat indices to values; a kernel launch
is a fold over the threads (or, per sample, the traversal callbacks) it
spawns. -/

namespace ngp

/-- Scalar values: device floats idealised as rationals. -/
abbrev Val := ℚ

/-- Interpolation mode (tiny-cuda-nn enum `InterpolationType`), restricted to
the two values the kernels branch on. -/
inductive InterpolationType where
  | Linear
  | Smoothstep
deriving DecidableEq

/-- Dual octree node: the 8 global vertex indices at the corners of a node's
cube (`TriangleOctreeDualNode`). -/
structure TriangleOctreeDualNode where
  vertices : Fin 8 → ℕ

/-- Modelled from the spec: the smoothstep warp curve applied per axis (helper
of tiny-cuda-nn's common_device.h, not under src/): the standard smoothstep
polynomial x^2 (3 - 2 x). -/
def smoothstep (x : Val) : Val := x * x * (3 - 2 * x)

/-- Modelled from the spec: the analytic derivative of `smoothstep`,
6 x (1 - x) (helper of tiny-cuda-nn's common_device.h, not under src/). -/
def smoothstep_derivative (x : Val) : Val := 6 * x * (1 - x)

/-- Modelled from the spec: one invocation of the traversal's visitor
(`traverse` of triangle_octree.cuh, not under src/): the dual node at one
depth level together with that level and the query point's local position in
the node's cell. -/
structure Step where
  node : TriangleOctreeDualNode
  level : ℕ
  pos : Fin 3 → Val

/-- Modelled from the spec: the shape of the visitor-call sequence `traverse`
produces (triangle_octree.cuh, not under src/): the visitor runs once per
depth level from 0 up to the last populated level, so a traversal that
reports final level d invoked the visitor exactly at levels 0, 1, ..., d-1
in that order. -/
def ConsecutiveTrace (trace : List Step) (d : ℕ) : Prop :=
  trace.length = d ∧ ∀ j : Fin trace.length, (trace.get j).level = j.val

/-- Traces whose visited levels strictly increase along the visit order (true
of every traversal, and all the forward kernel's bookkeeping needs). -/
def StrictMonoLevels (trace : List Step) : Prop :=
  ∀ a b : Fin trace.length, a.val < b.val → (trace.get a).level < (trace.get b).level

/-- The per-axis interpolation position the kernels actually use: the raw
local position for `Linear`, smoothstep-warped otherwise (kernel_takikawa
lines 64-75, kernel_takikawa_backward lines 216-221). -/
def warp (itype : InterpolationType) (pos : Fin 3 → Val) : Fin 3 → Val :=
  if itype = InterpolationType.Linear then pos else fun d => smoothstep (pos d)

/-- The per-axis local derivative factor: 1 for `Linear`, the smoothstep
derivative of the raw local position otherwise (kernel_takikawa lines 64-75). -/
def warpDeriv (itype : InterpolationType) (pos : Fin 3 → Val) : Fin 3 → Val :=
  if itype = InterpolationType.Linear then fun _ => 1
  else fun d => smoothstep_derivative (pos d)

/-- Trilinear corner weight (kernel_takikawa lines 82-92): the product over
the three axes of `pos[dim]` when bit `dim` of the corner index is set and
`1 - pos[dim]` otherwise. -/
def cornerWeight (pos : Fin 3 → Val) (idx : Fin 8) : Val :=
  (List.finRange 3).foldl
    (fun w dim => w * (if idx.val.testBit dim.val then pos dim else 1 - pos dim)) 1

/-- The trilinearly interpolated feature `f` of a node (kernel_takikawa lines
79-96): the weighted sum over the 8 corners of the feature stored at
`vertices[idx] * F + f`. -/
def interpResult (F : ℕ) (grid : ℕ → Val) (node : TriangleOctreeDualNode)
    (pos : Fin 3 → Val) (f : ℕ) : Val :=
  ∑ idx : Fin 8, cornerWeight pos idx * grid (node.vertices idx * F + f)

/-- The remapping of the two non-gradient axes in the dy/dx loop
(kernel_takikawa line 119): `non_grad_dim >= grad_dim ? non_grad_dim + 1 :
non_grad_dim`. -/
def otherDim (gradDim : Fin 3) (k : Fin 2) : Fin 3 :=
  if gradDim.val ≤ k.val then ⟨k.val + 1, by omega⟩ else ⟨k.val, by omega⟩

/-- Bilinear weight of one axis-opposite vertex pair over the two
non-gradient axes (kernel_takikawa lines 113-127). -/
def pairWeight (pos : Fin 3 → Val) (gradDim : Fin 3) (idx : Fin 4) : Val :=
  (List.finRange 2).foldl
    (fun w k =>
      w * (if idx.val.testBit k.val then pos (otherDim gradDim k)
           else 1 - pos (otherDim gradDim k))) 1

/-- The left corner of one axis-opposite vertex pair: the corner whose bits on
the two non-gradient axes follow `idx` and whose bit on the gradient axis is
clear (kernel_takikawa lines 115-127). -/
def pairChildIdx (gradDim : Fin 3) (idx : Fin 4) : ℕ :=
  (List.finRange 2).foldl
    (fun c k => if idx.val.testBit k.val then c ||| (1 <<< (otherDim gradDim k).val) else c) 0

theorem pairChildIdx_lt (gradDim : Fin 3) (idx : Fin 4) : pairChildIdx gradDim idx < 8 := by
  revert gradDim idx
  decide

theorem pairChildIdx_or_lt (gradDim : Fin 3) (idx : Fin 4) :
    pairChildIdx gradDim idx ||| (1 <<< gradDim.val) < 8 := by
  revert gradDim idx
  decide

/-- Left corner of a pair as an index into the 8 vertices. -/
def leftChild (gradDim : Fin 3) (idx : Fin 4) : Fin 8 :=
  ⟨pairChildIdx gradDim idx, pairChildIdx_lt gradDim idx⟩

/-- Right corner of a pair: the left corner with the gradient-axis bit set
(kernel_takikawa line 132). -/
def rightChild (gradDim : Fin 3) (idx : Fin 4) : Fin 8 :=
  ⟨pairChildIdx gradDim idx ||| (1 <<< gradDim.val), pairChildIdx_or_lt gradDim idx⟩

/-- One feature of the directional derivative of the interpolant along
`gradDim` (kernel_takikawa lines 108-140): the sum over the 4 axis-opposite
vertex pairs of `scale * pairWeight * (right - left) * pos_derivative`. -/
def gradFeature (F : ℕ) (scale : Val) (grid : ℕ → Val) (node : TriangleOctreeDualNode)
    (pos pd : Fin 3 → Val) (gradDim : Fin 3) (f : ℕ) : Val :=
  ∑ idx : Fin 4,
    scale * pairWeight pos gradDim idx *
      (grid (node.vertices (rightChild gradDim idx) * F + f) -
        grid (node.vertices (leftChild gradDim idx) * F + f)) *
      pd gradDim

/-- Write the `F` consecutive entries starting at `base` from `vals`, leaving
the rest of the buffer alone. -/
def writeBlock (buf : ℕ → Val) (base F : ℕ) (vals : ℕ → Val) : ℕ → Val :=
  fun k => if base ≤ k ∧ k < base + F then vals (k - base) else buf k

/-- The forward kernel's per-sample mutable state: the sample's column of
`data_out` (keyed by output row) and its block of the `dy_dx` cache (keyed by
`grad_dim * n_features + level * F + f`). -/
structure FwdState where
  out : ℕ → Val
  dydx : ℕ → Val

/-- The dy/dx writes of one visited level (kernel_takikawa lines 105-144):
for each of the 3 gradient axes, the `F` derivative features land at cache
rows `grad_dim * n_features + level * F + f` with `n_features = F *
n_levels`, and `scale = 2 ^ (level + starting_level)` with `level` already
shifted down by the starting level (line 106). -/
def dydxUpdate (F nLevels starting lvl : ℕ) (grid : ℕ → Val) (node : TriangleOctreeDualNode)
    (pos pd : Fin 3 → Val) (buf : ℕ → Val) : ℕ → Val :=
  (List.finRange 3).foldl
    (fun b gd =>
      writeBlock b (gd.val * (F * nLevels) + lvl * F) F
        (fun f => gradFeature F ((2 : Val) ^ (lvl + starting)) grid node pos pd gd f))
    buf

/-- The forward kernel's traversal callback (kernel_takikawa lines 56-146):
skip levels below the starting level; otherwise interpolate the node's 8
corner features into the sample's output rows (when `data_out` is non-null)
and record the three directional derivatives into the dy/dx cache (when
`dy_dx` is non-null). -/
def fwdVisit (F nLevels starting : ℕ) (itype : InterpolationType) (grid : ℕ → Val)
    (hasOut hasDydx : Bool) (s : FwdState) (st : Step) : FwdState :=
  if st.level < starting then s
  else
    let lvl := st.level - starting
    let pos := warp itype st.pos
    let pd := warpDeriv itype st.pos
    let s1 :=
      if hasOut then
        { s with out := writeBlock s.out (lvl * F) F (fun f => interpResult F grid st.node pos f) }
      else s
    if hasDydx then
      { s1 with dydx := dydxUpdate F nLevels starting lvl grid st.node pos pd s1.dydx }
    else s1

/-- Zero-fill of the output rows of the levels from `fromLvl` up
(kernel_takikawa lines 149-158): rows `lvl * F + f` for `fromLvl ≤ lvl <
nLevels`, `f < F`, i.e. exactly the row range `[fromLvl * F, nLevels * F)`. -/
def zeroFill (buf : ℕ → Val) (F nLevels fromLvl : ℕ) : ℕ → Val :=
  fun k => if fromLvl * F ≤ k ∧ k < nLevels * F then 0 else buf k

/-- One sample's slice of the forward kernel `kernel_takikawa` (lines 29-159):
fold the visitor over the traversal's visit sequence, then (only when
`data_out` is non-null) zero the output rows of the levels at or above the
final level the traversal reports, shifted by the starting level (the
source's `max(0, level - starting_level)` is natural subtraction here). -/
def kernel_takikawa (F nLevels starting : ℕ) (itype : InterpolationType) (grid : ℕ → Val)
    (trace : List Step) (finalLevel : ℕ) (hasOut hasDydx : Bool) (s : FwdState) : FwdState :=
  let s1 := trace.foldl (fwdVisit F nLevels starting itype grid hasOut hasDydx) s
  if hasOut then { s1 with out := zeroFill s1.out F nLevels (finalLevel - starting) } else s1

/-- The encoder's forward entry point, per sample
(TakikawaEncoding::forward_impl, lines 304-335): with neither an output
matrix nor an input-gradient request, or with zero output width
(`padded_output_width() = N_FEATURES_PER_LEVEL * n_levels()`, no padding),
nothing runs; otherwise the forward kernel runs with a null output view iff
no output matrix was passed and a null dy/dx pointer iff input gradients were
not requested. -/
def forward_impl (F nLevels starting : ℕ) (itype : InterpolationType) (grid : ℕ → Val)
    (hasOutput prepareInputGradients : Bool) (trace : List Step) (finalLevel : ℕ)
    (s : FwdState) : FwdState :=
  if (hasOutput = false ∧ prepareInputGradients = false) ∨ F * nLevels = 0 then s
  else kernel_takikawa F nLevels starting itype grid trace finalLevel hasOutput
    prepareInputGradients s

/-- An atomic add of `v` into slot `i` of a shared buffer (the sequential
meaning of one `atomicAdd`). -/
def addAt (buf : ℕ → Val) (i : ℕ) (v : Val) : ℕ → Val :=
  fun k => if k = i then buf k + v else buf k

/-- The `atomicAdd(__half2)` scatter path of one corner
(kernel_takikawa_backward lines 248-253): for `feature = 0, 2, 4, ...` one
two-wide atomic add lands `grad[feature] * weight` in slot
`param_idx + feature` and `grad[feature+1] * weight` in the next slot. -/
def scatterCornerHalf2 (F paramIdx : ℕ) (gradVec : ℕ → Val) (weight : Val)
    (buf : ℕ → Val) : ℕ → Val :=
  (List.range (F / 2)).foldl
    (fun b j =>
      addAt (addAt b (paramIdx + 2 * j) (gradVec (2 * j) * weight))
        (paramIdx + 2 * j + 1) (gradVec (2 * j + 1) * weight))
    buf

/-- The scalar-float fallback scatter path of one corner
(kernel_takikawa_backward lines 261-264): for each feature `f` an atomic add
of `grad[f] * weight` — at slot `param_idx`, exactly as the source indexes
it (the source does not add `f` to the slot index). -/
def scatterCornerFloat (F paramIdx : ℕ) (gradVec : ℕ → Val) (weight : Val)
    (buf : ℕ → Val) : ℕ → Val :=
  (List.range F).foldl (fun b f => addAt b paramIdx (gradVec f * weight)) buf

/-- The scatter of one corner's contribution, with the source's path
selection (kernel_takikawa_backward lines 247-266, compiled for compute
capability 60 and above): the two-wide half path when the accumulation type
is half and more than one feature per level; the silent no-op branch
(commented "Should never happen") when the accumulation type is half
otherwise; the scalar float path else. -/
def scatterCorner (gradHalf : Bool) (F paramIdx : ℕ) (gradVec : ℕ → Val) (weight : Val)
    (buf : ℕ → Val) : ℕ → Val :=
  if 1 < F ∧ gradHalf = true then scatterCornerHalf2 F paramIdx gradVec weight buf
  else if gradHalf = true then buf
  else scatterCornerFloat F paramIdx gradVec weight buf

/-- The backward-to-parameters kernel's traversal callback
(kernel_takikawa_backward lines 210-268): skip levels below the starting
level, warp the position for `Smoothstep`, load the level's upstream gradient
rows, and scatter `weight * grad` for each of the 8 corners at
`param_idx = vertices[idx] * F`. -/
def bwdVisit (F starting : ℕ) (itype : InterpolationType) (gradHalf : Bool)
    (dLdy : ℕ → Val) (buf : ℕ → Val) (st : Step) : ℕ → Val :=
  if st.level < starting then buf
  else
    let lvl := st.level - starting
    let pos := warp itype st.pos
    (List.finRange 8).foldl
      (fun b idx =>
        scatterCorner gradHalf F (st.node.vertices idx * F)
          (fun f => dLdy (F * lvl + f)) (cornerWeight pos idx) b)
      buf

/-- One sample's slice of the backward-to-parameters kernel
(kernel_takikawa_backward, lines 185-270): replay the traversal, scattering
at every visited level. -/
def kernel_takikawa_backward (F starting : ℕ) (itype : InterpolationType) (gradHalf : Bool)
    (trace : List Step) (dLdy : ℕ → Val) (buf : ℕ → Val) : ℕ → Val :=
  trace.foldl (bwdVisit F starting itype gradHalf dLdy) buf

/-- The whole backward-to-parameters launch over a batch: each sample is a
traversal trace paired with its column of the upstream gradient `dL_dy`. The
atomic adds of all samples commute, so their sequential fold is the
launch's result. -/
def kernel_takikawa_backward_batch (F starting : ℕ) (itype : InterpolationType)
    (gradHalf : Bool) (samples : List (List Step × (ℕ → Val))) (buf : ℕ → Val) : ℕ → Val :=
  samples.foldl
    (fun b sample => kernel_takikawa_backward F starting itype gradHalf sample.1 sample.2 b)
    buf

/-- Gradient accumulation mode (tiny-cuda-nn enum `GradientMode`). -/
inductive GradientMode where
  | Ignore
  | Overwrite
  | Add
deriving DecidableEq

/-- Scalar storage types the encoding is instantiated at: `float` or
`__half`. -/
inductive ScalarType where
  | f32
  | f16
deriving DecidableEq

/-- The gradient accumulation type `grad_t` (TakikawaEncoding lines 275-286,
for TCNN_MIN_GPU_ARCH at least 60): `float` when there is one feature per
level (no efficient one-wide half atomic add), the storage type `T`
otherwise. -/
def gradType (F : ℕ) (T : ScalarType) : ScalarType :=
  if F = 1 then ScalarType.f32 else T

/-- The parameter-gradient side of TakikawaEncoding::backward_impl (lines
337-388): no work on an empty batch or zero output width, or in `Ignore`
mode. Otherwise the scatter kernel accumulates into the gradient buffer
itself when `grad_t = T`, and into a freshly allocated — not zeroed —
workspace `tmpInit` when not; `Overwrite` first zeroes the first `nParams`
slots of that target; when a workspace was used, its first `nParams` slots
are finally copied over the gradient buffer. -/
def backward_impl_params (F nLevels starting : ℕ) (itype : InterpolationType)
    (T : ScalarType) (tmpInit : ℕ → Val) (nParams : ℕ) (mode : GradientMode)
    (samples : List (List Step × (ℕ → Val))) (grads : ℕ → Val) : ℕ → Val :=
  if F * nLevels = 0 ∨ samples.length = 0 then grads
  else if mode = GradientMode.Ignore then grads
  else
    let gradHalf : Bool := decide (gradType F T = ScalarType.f16)
    let target : ℕ → Val := if gradType F T = T then grads else tmpInit
    let init : ℕ → Val :=
      if mode = GradientMode.Overwrite then fun k => if k < nParams then 0 else target k
      else target
    let res := kernel_takikawa_backward_batch F starting itype gradHalf samples init
    if gradType F T = T then res else fun k => if k < nParams then res k else grads k

/-- The backward-to-input kernel launch (kernel_takikawa_backward_input,
lines 161-183, called with `num_elements * input_width()` threads): thread
`input_index` serves sample `i = input_index / 3` and axis `j = input_index
- i * 3`, writing into `dL_dx(j, i)` the dot product of sample `i`'s
upstream gradient column with its dy/dx slice for axis `j`. -/
def kernel_takikawa_backward_input (numElements numGridFeatures : ℕ)
    (dLdy : ℕ → ℕ → Val) (dydx : ℕ → Val) (dLdx : ℕ × ℕ → Val) : ℕ × ℕ → Val :=
  (List.range numElements).foldl
    (fun buf inputIndex c =>
      if c = (inputIndex - inputIndex / 3 * 3, inputIndex / 3) then
        ∑ k ∈ Finset.range numGridFeatures,
          dLdy k (inputIndex / 3) *
            dydx ((inputIndex / 3) * (numGridFeatures * 3) +
              (inputIndex - inputIndex / 3 * 3) * numGridFeatures + k)
      else buf c)
    dLdx

/-- The encoder's configuration after a successful construction. -/
structure TakikawaConfig where
  F : ℕ
  startingLevel : ℕ
  octreeDepth : ℕ
  itype : InterpolationType

/-- The constructor's checks (TakikawaEncoding::TakikawaEncoding, lines
288-300), in source order: the starting level must be below the octree
depth, and the feature width must be 1, 2, 4 or 8. -/
def takikawaConstruct (F startingLevel depth : ℕ) (itype : InterpolationType) :
    Except String TakikawaConfig :=
  if depth ≤ startingLevel then Except.error "Starting level must be below octree depth."
  else if ¬(F = 1 ∨ F = 2 ∨ F = 4 ∨ F = 8) then
    Except.error "Number of features per level must be 1, 2, 4, or 8."
  else Except.ok ⟨F, startingLevel, depth, itype⟩

/-- The derived level count (TakikawaEncoding::n_levels, lines 437-439):
octree depth minus starting level. -/
def nLevelsOf (cfg : TakikawaConfig) : ℕ := cfg.octreeDepth - cfg.startingLevel

/-- JSON scalar values as the hyperparameter report uses them. -/
inductive JsonVal where
  | str (s : String)
  | num (n : ℕ)
deriving DecidableEq

/-- The hyperparameter report (TakikawaEncoding::hyperparams, lines 445-451):
the otype tag, the starting level, and — under the key "n_levels" — the
octree's depth. -/
def hyperparams (cfg : TakikawaConfig) : List (String × JsonVal) :=
  [("otype", JsonVal.str "Takikawa"),
   ("starting_level", JsonVal.num cfg.startingLevel),
   ("n_levels", JsonVal.num cfg.octreeDepth)]

/-! Access lemmas for the forward kernel's buffer writes. -/

theorem writeBlock_out (buf : ℕ → Val) (base F : ℕ) (vals : ℕ → Val) (k : ℕ)
    (h : k < base ∨ base + F ≤ k) : writeBlock buf base F vals k = buf k := by
  unfold writeBlock
  split
  · omega
  · rfl

theorem writeBlock_in (buf : ℕ → Val) (base F : ℕ) (vals : ℕ → Val) (f : ℕ)
    (hf : f < F) : writeBlock buf base F vals (base + f) = vals f := by
  unfold writeBlock
  split
  · congr 1
    omega
  · omega

theorem finRange_three : List.finRange 3 = [0, 1, 2] := by decide

theorem dydxUpdate_untouched (F nLevels starting lvl : ℕ) (grid : ℕ → Val)
    (node : TriangleOctreeDualNode) (pos pd : Fin 3 → Val) (buf : ℕ → Val) (k : ℕ)
    (h : ∀ gd : Fin 3, k < gd.val * (F * nLevels) + lvl * F ∨
      gd.val * (F * nLevels) + lvl * F + F ≤ k) :
    dydxUpdate F nLevels starting lvl grid node pos pd buf k = buf k := by
  unfold dydxUpdate
  rw [finRange_three]
  simp only [List.foldl]
  rw [writeBlock_out _ _ _ _ _ (h 2), writeBlock_out _ _ _ _ _ (h 1),
    writeBlock_out _ _ _ _ _ (h 0)]

theorem dydxUpdate_write (F nLevels starting lvl : ℕ) (grid : ℕ → Val)
    (node : TriangleOctreeDualNode) (pos pd : Fin 3 → Val) (buf : ℕ → Val)
    (gd : Fin 3) (f : ℕ) (hf : f < F) (hl : lvl < nLevels) :
    dydxUpdate F nLevels starting lvl grid node pos pd buf
        (gd.val * (F * nLevels) + lvl * F + f) =
      gradFeature F ((2 : Val) ^ (lvl + starting)) grid node pos pd gd f := by
  have hblock : lvl * F + F ≤ F * nLevels := by
    have h1 : (lvl + 1) * F ≤ nLevels * F := Nat.mul_le_mul_right F (by omega)
    calc lvl * F + F = (lvl + 1) * F := by ring
    _ ≤ nLevels * F := h1
    _ = F * nLevels := Nat.mul_comm _ _
  unfold dydxUpdate
  rw [finRange_three]
  simp only [List.foldl]
  fin_cases gd
  · simp only [Fin.val_zero, Fin.val_one, Fin.val_two]
    rw [writeBlock_out _ _ _ _ _ (by omega), writeBlock_out _ _ _ _ _ (by omega),
      writeBlock_in _ _ _ _ _ hf]
    rfl
  · simp only [Fin.val_zero, Fin.val_one, Fin.val_two]
    rw [writeBlock_out _ _ _ _ _ (by omega), writeBlock_in _ _ _ _ _ hf]
    rfl
  · simp only [Fin.val_zero, Fin.val_one, Fin.val_two]
    rw [writeBlock_in _ _ _ _ _ hf]
    rfl

/-! Shape of one forward visit, projected on the two buffers. -/

theorem fwdVisit_out_eq (F nLevels starting : ℕ) (itype : InterpolationType) (grid : ℕ → Val)
    (hasOut hasDydx : Bool) (s : FwdState) (st : Step) :
    (fwdVisit F nLevels starting itype grid hasOut hasDydx s st).out =
      if st.level < starting then s.out
      else if hasOut then
        writeBlock s.out ((st.level - starting) * F) F
          (fun f => interpResult F grid st.node (warp itype st.pos) f)
      else s.out := by
  unfold fwdVisit
  by_cases h1 : st.level < starting
  · simp [h1]
  · by_cases h2 : hasOut <;> by_cases h3 : hasDydx <;> simp [h1, h2, h3]

theorem fwdVisit_dydx_eq (F nLevels starting : ℕ) (itype : InterpolationType) (grid : ℕ → Val)
    (hasOut hasDydx : Bool) (s : FwdState) (st : Step) :
    (fwdVisit F nLevels starting itype grid hasOut hasDydx s st).dydx =
      if st.level < starting then s.dydx
      else if hasDydx then
        dydxUpdate F nLevels starting (st.level - starting) grid st.node
          (warp itype st.pos) (warpDeriv itype st.pos) s.dydx
      else s.dydx := by
  unfold fwdVisit
  by_cases h1 : st.level < starting
  · simp [h1]
  · by_cases h2 : hasOut <;> by_cases h3 : hasDydx <;> simp [h1, h2, h3]

/-! Preservation and write lemmas for the forward fold. -/

theorem fold_out_hasOut_false (F nLevels starting : ℕ) (itype : InterpolationType)
    (grid : ℕ → Val) (hasDydx : Bool) :
    ∀ (trace : List Step) (s : FwdState),
      (trace.foldl (fwdVisit F nLevels starting itype grid false hasDydx) s).out = s.out := by
  intro trace
  induction trace with
  | nil => intro s; rfl
  | cons st rest ih =>
    intro s
    rw [List.foldl_cons, ih]
    rw [fwdVisit_out_eq]
    split <;> rfl

theorem fold_dydx_hasDydx_false (F nLevels starting : ℕ) (itype : InterpolationType)
    (grid : ℕ → Val) (hasOut : Bool) :
    ∀ (trace : List Step) (s : FwdState),
      (trace.foldl (fwdVisit F nLevels starting itype grid hasOut false) s).dydx = s.dydx := by
  intro trace
  induction trace with
  | nil => intro s; rfl
  | cons st rest ih =>
    intro s
    rw [List.foldl_cons, ih]
    rw [fwdVisit_dydx_eq]
    split <;> rfl

theorem fold_dydx_congr (F nLevels starting : ℕ) (itype : InterpolationType)
    (grid : ℕ → Val) (hasOut1 hasOut2 : Bool) :
    ∀ (trace : List Step) (s1 s2 : FwdState), s1.dydx = s2.dydx →
      (trace.foldl (fwdVisit F nLevels starting itype grid hasOut1 true) s1).dydx =
        (trace.foldl (fwdVisit F nLevels starting itype grid hasOut2 true) s2).dydx := by
  intro trace
  induction trace with
  | nil => intro s1 s2 h; exact h
  | cons st rest ih =>
    intro s1 s2 h
    rw [List.foldl_cons, List.foldl_cons]
    apply ih
    rw [fwdVisit_dydx_eq, fwdVisit_dydx_eq, h]

theorem fold_out_untouched (F nLevels starting : ℕ) (itype : InterpolationType)
    (grid : ℕ → Val) (hasDydx : Bool) (l0 : ℕ) :
    ∀ (trace : List Step) (s : FwdState),
      (∀ st ∈ trace, st.level < starting ∨ starting + l0 ≤ st.level) →
      ∀ k, k < l0 * F →
        (trace.foldl (fwdVisit F nLevels starting itype grid true hasDydx) s).out k = s.out k := by
  intro trace
  induction trace with
  | nil => intro s _ k _; rfl
  | cons st rest ih =>
    intro s hlv k hk
    rw [List.foldl_cons,
      ih _ (fun x hx => hlv x (List.mem_cons_of_mem st hx)) k hk,
      fwdVisit_out_eq]
    rcases hlv st (List.mem_cons_self st rest) with h | h
    · simp [h]
    · have hns : ¬st.level < starting := by omega
      simp only [hns, if_false, if_true]
      apply writeBlock_out
      left
      have : l0 * F ≤ (st.level - starting) * F := Nat.mul_le_mul_right F (by omega)
      omega

theorem fold_dydx_row_untouched (F nLevels starting : ℕ) (itype : InterpolationType)
    (grid : ℕ → Val) (hasOut : Bool) (row : ℕ) :
    ∀ (trace : List Step) (s : FwdState),
      (∀ st ∈ trace, st.level < starting ∨ ∀ gd2 : Fin 3,
        row < gd2.val * (F * nLevels) + (st.level - starting) * F ∨
        gd2.val * (F * nLevels) + (st.level - starting) * F + F ≤ row) →
      (trace.foldl (fwdVisit F nLevels starting itype grid hasOut true) s).dydx row =
        s.dydx row := by
  intro trace
  induction trace with
  | nil => intro s _; rfl
  | cons st rest ih =>
    intro s hlv
    rw [List.foldl_cons, ih _ (fun x hx => hlv x (List.mem_cons_of_mem st hx)),
      fwdVisit_dydx_eq]
    rcases hlv st (List.mem_cons_self st rest) with h | h
    · simp [h]
    · by_cases hs : st.level < starting
      · simp [hs]
      · simp only [hs, if_false, if_true]
        exact dydxUpdate_untouched _ _ _ _ _ _ _ _ _ _ h

theorem row_disjoint (F nLevels lvl lvl2 f : ℕ) (gd gd2 : Fin 3)
    (hf : f < F) (hl : lvl < nLevels) (hl2 : lvl2 < nLevels) (hne : lvl2 ≠ lvl) :
    gd.val * (F * nLevels) + lvl * F + f < gd2.val * (F * nLevels) + lvl2 * F ∨
    gd2.val * (F * nLevels) + lvl2 * F + F ≤ gd.val * (F * nLevels) + lvl * F + f := by
  have hb1 : lvl * F + F ≤ F * nLevels := by
    calc lvl * F + F = (lvl + 1) * F := by ring
      _ ≤ nLevels * F := Nat.mul_le_mul_right F (by omega)
      _ = F * nLevels := Nat.mul_comm _ _
  have hb2 : lvl2 * F + F ≤ F * nLevels := by
    calc lvl2 * F + F = (lvl2 + 1) * F := by ring
      _ ≤ nLevels * F := Nat.mul_le_mul_right F (by omega)
      _ = F * nLevels := Nat.mul_comm _ _
  have hc : lvl2 * F + F ≤ lvl * F ∨ lvl * F + F ≤ lvl2 * F := by
    rcases Nat.lt_or_ge lvl2 lvl with h | h
    · left
      calc lvl2 * F + F = (lvl2 + 1) * F := by ring
        _ ≤ lvl * F := Nat.mul_le_mul_right F (by omega)
    · right
      calc lvl * F + F = (lvl + 1) * F := by ring
        _ ≤ lvl2 * F := Nat.mul_le_mul_right F (by omega)
  fin_cases gd <;> fin_cases gd2 <;>
    simp only [Fin.val_zero, Fin.val_one, Fin.val_two] <;> omega

theorem strictMonoLevels_cons {st : Step} {rest : List Step}
    (h : StrictMonoLevels (st :: rest)) : StrictMonoLevels rest := by
  intro a b hab
  have h2 := h ⟨a.val + 1, by simpa using Nat.succ_lt_succ a.isLt⟩
    ⟨b.val + 1, by simpa using Nat.succ_lt_succ b.isLt⟩ (by simpa using hab)
  simpa using h2

theorem strictMonoLevels_head_lt {st : Step} {rest : List Step}
    (h : StrictMonoLevels (st :: rest)) : ∀ x ∈ rest, st.level < x.level := by
  intro x hx
  obtain ⟨n, hn⟩ := List.mem_iff_get.mp hx
  subst hn
  have h2 := h ⟨0, by simp⟩ ⟨n.val + 1, by simpa using Nat.succ_lt_succ n.isLt⟩
    (Nat.succ_pos _)
  simpa using h2

theorem fold_out_write (F nLevels starting : ℕ) (itype : InterpolationType)
    (grid : ℕ → Val) (hasDydx : Bool) :
    ∀ (trace : List Step) (s : FwdState) (j : ℕ) (hj : j < trace.length),
      StrictMonoLevels trace →
      starting ≤ (trace.get ⟨j, hj⟩).level →
      ∀ f, f < F →
        (trace.foldl (fwdVisit F nLevels starting itype grid true hasDydx) s).out
            (((trace.get ⟨j, hj⟩).level - starting) * F + f) =
          interpResult F grid (trace.get ⟨j, hj⟩).node
            (warp itype (trace.get ⟨j, hj⟩).pos) f := by
  intro trace
  induction trace with
  | nil => intro s j hj; exact absurd hj (by simp)
  | cons st rest ih =>
    intro s j hj hmono hstart f hf
    rw [List.foldl_cons]
    cases j with
    | zero =>
      have hget0 : (st :: rest).get ⟨0, hj⟩ = st := rfl
      rw [hget0] at hstart ⊢
      have hns : ¬st.level < starting := Nat.not_lt.mpr hstart
      have hrest := strictMonoLevels_head_lt hmono
      have hexp : ((st.level - starting) + 1) * F = (st.level - starting) * F + F := by ring
      have hk : (st.level - starting) * F + f < ((st.level - starting) + 1) * F := by omega
      have hcond : ∀ x ∈ rest,
          x.level < starting ∨ starting + ((st.level - starting) + 1) ≤ x.level := by
        intro x hx
        right
        have := hrest x hx
        omega
      rw [fold_out_untouched F nLevels starting itype grid hasDydx ((st.level - starting) + 1)
        rest (fwdVisit F nLevels starting itype grid true hasDydx s st) hcond _ hk]
      rw [fwdVisit_out_eq]
      simp only [hns, if_false, if_true]
      exact writeBlock_in _ _ _ _ _ hf
    | succ n =>
      have hn : n < rest.length := by simpa using hj
      have hget : (st :: rest).get ⟨n + 1, hj⟩ = rest.get ⟨n, hn⟩ := by simp
      rw [hget] at hstart ⊢
      exact ih _ n hn (strictMonoLevels_cons hmono) hstart f hf

theorem fold_dydx_write (F nLevels starting : ℕ) (itype : InterpolationType)
    (grid : ℕ → Val) (hasOut : Bool) :
    ∀ (trace : List Step) (s : FwdState) (j : ℕ) (hj : j < trace.length),
      StrictMonoLevels trace →
      (∀ m (hm : m < trace.length), (trace.get ⟨m, hm⟩).level < starting + nLevels) →
      starting ≤ (trace.get ⟨j, hj⟩).level →
      ∀ (gd : Fin 3) (f : ℕ), f < F →
        (trace.foldl (fwdVisit F nLevels starting itype grid hasOut true) s).dydx
            (gd.val * (F * nLevels) + ((trace.get ⟨j, hj⟩).level - starting) * F + f) =
          gradFeature F ((2 : Val) ^ (((trace.get ⟨j, hj⟩).level - starting) + starting)) grid
            (trace.get ⟨j, hj⟩).node (warp itype (trace.get ⟨j, hj⟩).pos)
            (warpDeriv itype (trace.get ⟨j, hj⟩).pos) gd f := by
  intro trace
  induction trace with
  | nil => intro s j hj; exact absurd hj (by simp)
  | cons st rest ih =>
    intro s j hj hmono hbound hstart gd f hf
    rw [List.foldl_cons]
    cases j with
    | zero =>
      have hget0 : (st :: rest).get ⟨0, hj⟩ = st := rfl
      rw [hget0] at hstart ⊢
      have hns : ¬st.level < starting := Nat.not_lt.mpr hstart
      have hl0 : st.level - starting < nLevels := by
        have h0 := hbound 0 (by simp)
        have hg : (st :: rest).get ⟨0, by simp⟩ = st := rfl
        rw [hg] at h0
        omega
      have hrest := strictMonoLevels_head_lt hmono
      have hcond : ∀ x ∈ rest, x.level < starting ∨ ∀ gd2 : Fin 3,
          gd.val * (F * nLevels) + (st.level - starting) * F + f <
            gd2.val * (F * nLevels) + (x.level - starting) * F ∨
          gd2.val * (F * nLevels) + (x.level - starting) * F + F ≤
            gd.val * (F * nLevels) + (st.level - starting) * F + f := by
        intro x hx
        right
        intro gd2
        obtain ⟨n, hn⟩ := List.mem_iff_get.mp hx
        have hxb : x.level < starting + nLevels := by
          have h1 := hbound (n.val + 1) (by simpa using Nat.succ_lt_succ n.isLt)
          have hg : (st :: rest).get ⟨n.val + 1,
              by simpa using Nat.succ_lt_succ n.isLt⟩ = rest.get n := rfl
          rw [hg, hn] at h1
          exact h1
        have hgt : st.level < x.level := hrest x hx
        exact row_disjoint F nLevels (st.level - starting) (x.level - starting) f gd gd2
          hf hl0 (by omega) (by omega)
      rw [fold_dydx_row_untouched F nLevels starting itype grid hasOut _ rest
        (fwdVisit F nLevels starting itype grid hasOut true s st) hcond]
      rw [fwdVisit_dydx_eq]
      simp only [hns, if_false, if_true]
      exact dydxUpdate_write F nLevels starting (st.level - starting) grid st.node
        (warp itype st.pos) (warpDeriv itype st.pos) s.dydx gd f hf hl0
    | succ n =>
      have hn : n < rest.length := by simpa using hj
      have hget : (st :: rest).get ⟨n + 1, hj⟩ = rest.get ⟨n, hn⟩ := by simp
      have hbound2 : ∀ m (hm : m < rest.length),
          (rest.get ⟨m, hm⟩).level < starting + nLevels := by
        intro m hm
        have := hbound (m + 1) (by simpa using Nat.succ_lt_succ hm)
        simpa using this
      rw [hget] at hstart ⊢
      exact ih _ n hn (strictMonoLevels_cons hmono) hbound2 hstart gd f hf

/-! The backward scatter is an additive update: its result is the incoming
buffer plus the contribution it would write into a zero buffer. This is what
makes overwrite idempotent and add-mode linear. -/

theorem foldl_addShift {α : Type} (step : (ℕ → Val) → α → (ℕ → Val))
    (hstep : ∀ b a k, step b a k = b k + step (fun _ => 0) a k) :
    ∀ (l : List α) (b : ℕ → Val) (k : ℕ),
      l.foldl step b k = b k + l.foldl step (fun _ => 0) k := by
  intro l
  induction l with
  | nil => intro b k; simp
  | cons a l ih =>
    intro b k
    rw [List.foldl_cons, List.foldl_cons, ih (step b a) k, hstep b a k,
      ih (step (fun _ => 0) a) k]
    ring

theorem scatterCornerHalf2_shift (F paramIdx : ℕ) (gv : ℕ → Val) (w : Val)
    (b : ℕ → Val) (k : ℕ) :
    scatterCornerHalf2 F paramIdx gv w b k =
      b k + scatterCornerHalf2 F paramIdx gv w (fun _ => 0) k := by
  unfold scatterCornerHalf2
  apply foldl_addShift
  intro b j k
  simp only [addAt]
  split_ifs <;> ring

theorem scatterCornerFloat_shift (F paramIdx : ℕ) (gv : ℕ → Val) (w : Val)
    (b : ℕ → Val) (k : ℕ) :
    scatterCornerFloat F paramIdx gv w b k =
      b k + scatterCornerFloat F paramIdx gv w (fun _ => 0) k := by
  unfold scatterCornerFloat
  apply foldl_addShift
  intro b f k
  simp only [addAt]
  split_ifs <;> ring

theorem scatterCorner_shift (gh : Bool) (F paramIdx : ℕ) (gv : ℕ → Val) (w : Val)
    (b : ℕ → Val) (k : ℕ) :
    scatterCorner gh F paramIdx gv w b k =
      b k + scatterCorner gh F paramIdx gv w (fun _ => 0) k := by
  unfold scatterCorner
  split
  · exact scatterCornerHalf2_shift F paramIdx gv w b k
  · split
    · simp
    · exact scatterCornerFloat_shift F paramIdx gv w b k

theorem bwdVisit_shift (F starting : ℕ) (itype : InterpolationType) (gh : Bool)
    (dLdy : ℕ → Val) (st : Step) (b : ℕ → Val) (k : ℕ) :
    bwdVisit F starting itype gh dLdy b st k =
      b k + bwdVisit F starting itype gh dLdy (fun _ => 0) st k := by
  unfold bwdVisit
  by_cases h : st.level < starting
  · simp [h]
  · simp only [if_neg h]
    exact foldl_addShift
      (fun b idx =>
        scatterCorner gh F (st.node.vertices idx * F)
          (fun f => dLdy (F * (st.level - starting) + f))
          (cornerWeight (warp itype st.pos) idx) b)
      (fun b2 idx k2 => scatterCorner_shift gh F (st.node.vertices idx * F) _ _ b2 k2)
      (List.finRange 8) b k

theorem kernel_backward_shift (F starting : ℕ) (itype : InterpolationType) (gh : Bool)
    (trace : List Step) (dLdy : ℕ → Val) (b : ℕ → Val) (k : ℕ) :
    kernel_takikawa_backward F starting itype gh trace dLdy b k =
      b k + kernel_takikawa_backward F starting itype gh trace dLdy (fun _ => 0) k := by
  unfold kernel_takikawa_backward
  exact foldl_addShift (bwdVisit F starting itype gh dLdy)
    (fun b st k => bwdVisit_shift F starting itype gh dLdy st b k) trace b k

theorem kernel_backward_batch_shift (F starting : ℕ) (itype : InterpolationType)
    (gh : Bool) (samples : List (List Step × (ℕ → Val))) (b : ℕ → Val) (k : ℕ) :
    kernel_takikawa_backward_batch F starting itype gh samples b k =
      b k + kernel_takikawa_backward_batch F starting itype gh samples (fun _ => 0) k := by
  unfold kernel_takikawa_backward_batch
  exact foldl_addShift
    (fun b sample => kernel_takikawa_backward F starting itype gh sample.1 sample.2 b)
    (fun b sample k => kernel_backward_shift F starting itype gh sample.1 sample.2 b k)
    samples b k

/-! The backward-to-input launch writes each cell once: the value of cell
(j, i) is the dot product its own thread computes. -/

theorem backward_input_cell (ngf : ℕ) (dLdy : ℕ → ℕ → Val) (dydx : ℕ → Val)
    (dLdx0 : ℕ × ℕ → Val) :
    ∀ (M i j : ℕ), 3 * i + j < M → j < 3 →
      kernel_takikawa_backward_input M ngf dLdy dydx dLdx0 (j, i) =
        ∑ k ∈ Finset.range ngf, dLdy k i * dydx (i * (ngf * 3) + j * ngf + k) := by
  intro M
  induction M with
  | zero => intro i j h hj; omega
  | succ M ih =>
    intro i j hM hj
    have hsplit : kernel_takikawa_backward_input (M + 1) ngf dLdy dydx dLdx0 (j, i) =
        (if (j, i) = (M - M / 3 * 3, M / 3) then
          ∑ k ∈ Finset.range ngf,
            dLdy k (M / 3) *
              dydx ((M / 3) * (ngf * 3) + (M - M / 3 * 3) * ngf + k)
        else kernel_takikawa_backward_input M ngf dLdy dydx dLdx0 (j, i)) := by
      unfold kernel_takikawa_backward_input
      rw [List.range_succ, List.foldl_append]
      rfl
    by_cases hlast : 3 * i + j = M
    · have hi : M / 3 = i := by omega
      have hj2 : M - M / 3 * 3 = j := by omega
      rw [hsplit, if_pos (by rw [hj2, hi]), hj2, hi]
    · have hne : (j, i) ≠ (M - M / 3 * 3, M / 3) := by
        intro h
        simp only [Prod.mk.injEq] at h
        omega
      rw [hsplit, if_neg hne]
      exact ih i j (by omega) hj

/-! Concrete fixtures used to instantiate the claims: a root node with
vertices 0..7, a second node with vertices 8..15, the identity grid, and a
sample sitting at a node centroid. -/

def wNode : TriangleOctreeDualNode := ⟨fun idx => idx.val⟩

def wNode2 : TriangleOctreeDualNode := ⟨fun idx => 8 + idx.val⟩

def wGrid : ℕ → Val := fun k => (k : Val)

def wPos : Fin 3 → Val := fun _ => (1 : Val) / 2

def wStep0 : Step := ⟨wNode, 0, wPos⟩

def wStep1 : Step := ⟨wNode2, 1, wPos⟩

def wState : FwdState := ⟨fun _ => 1000, fun _ => 2000⟩

def wB : ℕ → Val := fun _ => 5

def c7node : TriangleOctreeDualNode := ⟨fun _ => 0⟩

def c7samples : List (List Step × (ℕ → Val)) := [([⟨c7node, 0, fun _ => 0⟩], fun _ => 1)]

def c8cfg : TakikawaConfig := ⟨2, 1, 3, InterpolationType.Smoothstep⟩

/-! Evaluation helpers: concrete index ranges and Fin-literal values, used to
compute the kernels on the fixtures by simp/norm_num (rational arithmetic does
not reduce under `decide`). -/

theorem finRange_three_mk :
    List.finRange 3 = [⟨0, by omega⟩, ⟨1, by omega⟩, ⟨2, by omega⟩] := by decide

theorem finRange_eight_mk :
    List.finRange 8 =
      [⟨0, by omega⟩, ⟨1, by omega⟩, ⟨2, by omega⟩, ⟨3, by omega⟩,
       ⟨4, by omega⟩, ⟨5, by omega⟩, ⟨6, by omega⟩, ⟨7, by omega⟩] := by decide

theorem finRange_two_mk : List.finRange 2 = [⟨0, by omega⟩, ⟨1, by omega⟩] := by decide

theorem fin8_val_three : ((3 : Fin 8) : ℕ) = 3 := rfl

theorem fin8_val_four : ((4 : Fin 8) : ℕ) = 4 := rfl

theorem fin8_val_five : ((5 : Fin 8) : ℕ) = 5 := rfl

theorem fin8_val_six : ((6 : Fin 8) : ℕ) = 6 := rfl

theorem fin8_val_seven : ((7 : Fin 8) : ℕ) = 7 := rfl

theorem fin4_val_three : ((3 : Fin 4) : ℕ) = 3 := rfl

/-- C1: the claim says every feature component f lands in its own gradient
slot `vertex * F + f` on every supported accumulation path. The source's
scalar-float fallback (a supported path: `grad_t = float` whenever `T =
float`, here with F = 2) instead adds every component into slot `vertex * F`:
with corner weights 1/8 and upstream gradient (1, 1), slot 0 receives 1/4 and
slot 1 receives 0, while the `__half2` path of the very same kernel puts 1/8
into each of slots 0 and 1 — the fallback's indexing is a slip. -/
theorem C1_scalar_float_fallback_misindexes :
    gradType 2 ScalarType.f32 = ScalarType.f32 ∧
    takikawaConstruct 2 0 2 InterpolationType.Linear =
      Except.ok ⟨2, 0, 2, InterpolationType.Linear⟩ ∧
    kernel_takikawa_backward 2 0 InterpolationType.Linear false [wStep0] (fun _ => 1)
      (fun _ => 0) 0 = 1 / 4 ∧
    kernel_takikawa_backward 2 0 InterpolationType.Linear false [wStep0] (fun _ => 1)
      (fun _ => 0) 1 = 0 ∧
    kernel_takikawa_backward 2 0 InterpolationType.Linear true [wStep0] (fun _ => 1)
      (fun _ => 0) 0 = 1 / 8 ∧
    kernel_takikawa_backward 2 0 InterpolationType.Linear true [wStep0] (fun _ => 1)
      (fun _ => 0) 1 = 1 / 8 := by
  refine ⟨rfl, rfl, ?_, ?_, ?_, ?_⟩ <;>
    norm_num [kernel_takikawa_backward, bwdVisit, scatterCorner, scatterCornerHalf2,
      scatterCornerFloat, addAt, cornerWeight, warp, wStep0, wNode, wPos,
      finRange_eight_mk, finRange_three_mk, List.range_succ]

set_option maxHeartbeats 3200000 in
/-- C2: F = 2, a 2-level octree, starting level 0, nodes with known distinct
feature vectors at their 8 vertices; a sample at the node centroid (local
position 1/2 on every axis at each visited level) produces per level the
arithmetic mean of that level's 8 corner feature vectors, and the backward
pass with upstream gradient (1, 1) (on the `__half2` accumulation path, the
one used for T = half, F = 2) adds exactly 1/8 to every vertex's gradient
slots. -/
theorem C2_centroid_scenario :
    (∀ f : Fin 2,
      (kernel_takikawa 2 2 0 InterpolationType.Linear wGrid [wStep0, wStep1] 2 true false
        wState).out (0 * 2 + f.val) =
      (∑ idx : Fin 8, wGrid (wNode.vertices idx * 2 + f.val)) / 8) ∧
    (∀ f : Fin 2,
      (kernel_takikawa 2 2 0 InterpolationType.Linear wGrid [wStep0, wStep1] 2 true false
        wState).out (1 * 2 + f.val) =
      (∑ idx : Fin 8, wGrid (wNode2.vertices idx * 2 + f.val)) / 8) ∧
    (∀ k : Fin 32,
      kernel_takikawa_backward 2 0 InterpolationType.Linear true [wStep0, wStep1]
        (fun _ => 1) wB k.val = wB k.val + 1 / 8) := by
  refine ⟨?_, ?_, ?_⟩ <;> intro x <;> fin_cases x <;>
    norm_num [kernel_takikawa, kernel_takikawa_backward, fwdVisit, bwdVisit, writeBlock,
      zeroFill, interpResult, scatterCorner, scatterCornerHalf2, scatterCornerFloat, addAt,
      cornerWeight, warp, wStep0, wStep1, wNode, wNode2, wGrid, wPos, wState, wB,
      finRange_eight_mk, finRange_three_mk, List.range_succ, Fin.sum_univ_eight,
      fin8_val_three, fin8_val_four, fin8_val_five, fin8_val_six, fin8_val_seven]

/-- C6: the two construction-time checks reject exactly the bad
configurations (starting level at or beyond the octree depth; feature width
outside 1, 2, 4, 8), and for every configuration that construction accepts,
the backward scatter's path selection never reaches the silent
"Should never happen" no-op branch: the accumulation type `grad_t` is half
only when more than one feature per level is configured, so every constructed
instance takes a safe concurrent-update path. -/
theorem C6_construction_errors :
    (∀ (F s d : ℕ) (it : InterpolationType),
      (∃ cfg, takikawaConstruct F s d it = Except.ok cfg) ↔
        (s < d ∧ (F = 1 ∨ F = 2 ∨ F = 4 ∨ F = 8))) ∧
    (∀ (F s d : ℕ) (it : InterpolationType) (T : ScalarType) (cfg : TakikawaConfig),
      takikawaConstruct F s d it = Except.ok cfg →
      ∀ (paramIdx : ℕ) (gv : ℕ → Val) (w : Val) (buf : ℕ → Val),
        scatterCorner (decide (gradType cfg.F T = ScalarType.f16)) cfg.F paramIdx gv w buf =
          if gradType cfg.F T = ScalarType.f16 then
            scatterCornerHalf2 cfg.F paramIdx gv w buf
          else scatterCornerFloat cfg.F paramIdx gv w buf) := by
  constructor
  · intro F s d it
    unfold takikawaConstruct
    split_ifs with h1 h2
    · constructor
      · rintro ⟨cfg, hcfg⟩
        exact absurd hcfg (by simp)
      · rintro ⟨hsd, _⟩
        omega
    · constructor
      · intro _
        exact ⟨by omega, h2⟩
      · intro _
        exact ⟨_, rfl⟩
    · constructor
      · rintro ⟨cfg, hcfg⟩
        exact absurd hcfg (by simp)
      · rintro ⟨_, hF⟩
        exact absurd hF h2
  · intro F s d it T cfg hok paramIdx gv w buf
    have hcfg : cfg.F = F ∧ (F = 1 ∨ F = 2 ∨ F = 4 ∨ F = 8) := by
      unfold takikawaConstruct at hok
      split_ifs at hok with h1 h2
      simp only [Except.ok.injEq] at hok
      exact ⟨by rw [← hok], h2⟩
    obtain ⟨hcf, hF⟩ := hcfg
    by_cases hF1 : F = 1
    · have hgt : gradType cfg.F T = ScalarType.f32 := by
        simp [gradType, hcf, hF1]
      rw [hgt]
      simp [scatterCorner]
    · have h1F : 1 < cfg.F := by rw [hcf]; omega
      cases T with
      | f32 =>
        have hgt : gradType cfg.F ScalarType.f32 = ScalarType.f32 := by
          simp [gradType, hcf, hF1]
        rw [hgt]
        simp [scatterCorner]
      | f16 =>
        have hgt : gradType cfg.F ScalarType.f16 = ScalarType.f16 := by
          simp [gradType, hcf, hF1]
        rw [hgt, if_pos rfl]
        unfold scatterCorner
        rw [if_pos ⟨h1F, rfl⟩]

/-- C8: the claim says the hyperparameter report contains the starting level,
the derived level count (depth minus starting level) and the interpolation
mode. On the instance with starting level 1 and depth 3 the derived count is
2, yet no key/value pair of the report holds it (the report's "n_levels" key
holds the full depth 3), and the three keys reported leave no slot for the
interpolation mode. -/
theorem C8_hyperparams_counterexample :
    nLevelsOf c8cfg = 2 ∧
    (hyperparams c8cfg).lookup "n_levels" = some (JsonVal.num 3) ∧
    (∀ p : String × JsonVal, p ∈ hyperparams c8cfg → p.2 ≠ JsonVal.num (nLevelsOf c8cfg)) ∧
    (hyperparams c8cfg).map Prod.fst = ["otype", "starting_level", "n_levels"] := by
  refine ⟨rfl, rfl, ?_, rfl⟩
  decide

/-- C8 (amended): the hyperparameter report holds exactly three named
key/value pairs: an "otype" tag, the starting level under "starting_level",
and the octree's full depth under "n_levels"; neither the derived level count
nor the interpolation mode is reported. -/
theorem C8_hyperparams_amended (cfg : TakikawaConfig) :
    (hyperparams cfg).lookup "otype" = some (JsonVal.str "Takikawa") ∧
    (hyperparams cfg).lookup "starting_level" = some (JsonVal.num cfg.startingLevel) ∧
    (hyperparams cfg).lookup "n_levels" = some (JsonVal.num cfg.octreeDepth) ∧
    (hyperparams cfg).length = 3 :=
  ⟨rfl, rfl, rfl, rfl⟩

/-- C3: for a sample whose traversal stops at level d below the requested
depth, the forward pass writes exactly zero into every output feature slot of
every active level at or above the last level reached, while each reached
level at or above the starting level holds the trilinear interpolation of
that level's node's 8 vertex feature vectors. -/
theorem C3_zero_fill_and_reached_interpolation (F nLevels starting d : ℕ)
    (itype : InterpolationType) (grid : ℕ → Val) (hasDydx : Bool)
    (trace : List Step) (s : FwdState)
    (htr : ConsecutiveTrace trace d) (hd : d < starting + nLevels) :
    (∀ lvl f, lvl < nLevels → f < F → d - starting ≤ lvl →
      (kernel_takikawa F nLevels starting itype grid trace d true hasDydx s).out
        (lvl * F + f) = 0) ∧
    (∀ (j : ℕ) (hj : j < trace.length), starting ≤ j → ∀ f, f < F →
      (kernel_takikawa F nLevels starting itype grid trace d true hasDydx s).out
          ((j - starting) * F + f) =
        interpResult F grid (trace.get ⟨j, hj⟩).node
          (warp itype (trace.get ⟨j, hj⟩).pos) f) := by
  obtain ⟨hlen, hlev⟩ := htr
  have hmono : StrictMonoLevels trace := by
    intro a b hab
    rw [hlev a, hlev b]
    exact hab
  have hker : (kernel_takikawa F nLevels starting itype grid trace d true hasDydx s).out =
      zeroFill ((trace.foldl (fwdVisit F nLevels starting itype grid true hasDydx) s).out)
        F nLevels (d - starting) := rfl
  constructor
  · intro lvl f hl hf hge
    rw [hker]
    unfold zeroFill
    have h1 : (d - starting) * F ≤ lvl * F := Nat.mul_le_mul_right F hge
    have h2 : (lvl + 1) * F ≤ nLevels * F := Nat.mul_le_mul_right F (by omega)
    have h3 : lvl * F + F = (lvl + 1) * F := by ring
    rw [if_pos (by omega)]
  · intro j hj hstart f hf
    have hl : (trace.get ⟨j, hj⟩).level = j := hlev ⟨j, hj⟩
    have hjd : j < d := by omega
    have hrow : (j - starting) * F + f < (d - starting) * F := by
      have h2 : (j - starting + 1) * F ≤ (d - starting) * F :=
        Nat.mul_le_mul_right F (by omega)
      have h3 : (j - starting) * F + F = (j - starting + 1) * F := by ring
      omega
    rw [hker]
    unfold zeroFill
    rw [if_neg (by omega)]
    have hw := fold_out_write F nLevels starting itype grid hasDydx trace s j hj hmono
      (by rw [hl]; exact hstart) f hf
    rw [hl] at hw
    exact hw

/-- Witness for C3: a one-step traversal (2 levels requested, only level 0
reached) zero-fills the level-1 row and interpolates the level-0 row. -/
theorem C3_witness :
    (kernel_takikawa 2 2 0 InterpolationType.Linear wGrid [wStep0] 1 true false wState).out 2
        = 0 ∧
    (kernel_takikawa 2 2 0 InterpolationType.Linear wGrid [wStep0] 1 true false wState).out 0
        = interpResult 2 wGrid wNode (warp InterpolationType.Linear wPos) 0 := by
  have h := C3_zero_fill_and_reached_interpolation 2 2 0 1 InterpolationType.Linear wGrid
    false [wStep0] wState ⟨rfl, by decide⟩ (by omega)
  exact ⟨h.1 1 0 (by omega) (by omega) (by omega), h.2 0 (by decide) (by omega) 0 (by omega)⟩

/-- C4: when input gradients are requested, the derivative-cache row for
axis gradDim, visited level and feature f of a sample holds the sum over the
4 axis-opposite vertex pairs of the bilinear weight over the other two axes
times (right-vertex minus left-vertex features), scaled by 2^level (the
absolute octree level) and by the axis's local derivative factor — 1 for
Linear interpolation, the smoothstep derivative of the local position
otherwise. -/
theorem C4_dydx_cache_contents (F nLevels starting : ℕ) (itype : InterpolationType)
    (grid : ℕ → Val) (hasOut : Bool) (trace : List Step) (finalLevel : ℕ) (s : FwdState)
    (hmono : StrictMonoLevels trace)
    (hbound : ∀ m (hm : m < trace.length), (trace.get ⟨m, hm⟩).level < starting + nLevels)
    (j : ℕ) (hj : j < trace.length) (hstart : starting ≤ (trace.get ⟨j, hj⟩).level)
    (gd : Fin 3) (f : ℕ) (hf : f < F) :
    (kernel_takikawa F nLevels starting itype grid trace finalLevel hasOut true s).dydx
        (gd.val * (F * nLevels) + ((trace.get ⟨j, hj⟩).level - starting) * F + f) =
      (2 : Val) ^ (trace.get ⟨j, hj⟩).level *
        (∑ idx : Fin 4,
          pairWeight (warp itype (trace.get ⟨j, hj⟩).pos) gd idx *
            (grid ((trace.get ⟨j, hj⟩).node.vertices (rightChild gd idx) * F + f) -
              grid ((trace.get ⟨j, hj⟩).node.vertices (leftChild gd idx) * F + f))) *
        warpDeriv itype (trace.get ⟨j, hj⟩).pos gd ∧
    (itype = InterpolationType.Linear → warpDeriv itype (trace.get ⟨j, hj⟩).pos gd = 1) ∧
    (itype = InterpolationType.Smoothstep →
      warpDeriv itype (trace.get ⟨j, hj⟩).pos gd =
        smoothstep_derivative ((trace.get ⟨j, hj⟩).pos gd)) := by
  have hdx : (kernel_takikawa F nLevels starting itype grid trace finalLevel hasOut
      true s).dydx =
      (trace.foldl (fwdVisit F nLevels starting itype grid hasOut true) s).dydx := by
    unfold kernel_takikawa
    split <;> rfl
  refine ⟨?_, ?_, ?_⟩
  · rw [hdx, fold_dydx_write F nLevels starting itype grid hasOut trace s j hj hmono hbound
      hstart gd f hf, Nat.sub_add_cancel hstart]
    unfold gradFeature
    rw [Finset.mul_sum, Finset.sum_mul]
    apply Finset.sum_congr rfl
    intro x _
    ring
  · intro h
    simp [warpDeriv, h]
  · intro h
    subst h
    simp [warpDeriv]

/-- Witness for C4: on the one-level centroid trace with F = 1 and the
identity grid, the cache row for axis 0 holds 1 (every axis-0 vertex pair
differs by one feature unit, the four pair weights are 1/4 each, scale is
2^0). -/
theorem C4_witness :
    (kernel_takikawa 1 1 0 InterpolationType.Linear wGrid [wStep0] 1 true true wState).dydx 0
      = 1 := by
  have h := (C4_dydx_cache_contents 1 1 0 InterpolationType.Linear wGrid true [wStep0] 1
    wState (by unfold StrictMonoLevels; decide)
    (by
      intro m hm
      have hm0 : m = 0 := by simp at hm; omega
      subst hm0
      show wStep0.level < 0 + 1
      decide)
    0 (by decide) (by decide) 0 0 (by omega)).1
  refine h.trans ?_
  simp +decide [pairWeight, pairChildIdx, leftChild, rightChild, otherDim, warp, warpDeriv,
    wStep0, wNode, wPos, wGrid, finRange_two_mk, Fin.sum_univ_four, fin4_val_three]
  norm_num

/-- C5: each output cell (axis j, sample i) of the backward-to-input launch
equals the dot product over all level-feature terms k of the upstream
gradient column i with the derivative-cache slice at i*3*(L*F) + j*(L*F) + k,
and the cell depends only on sample i's own gradient column and cache block,
so samples are processed independently. -/
theorem C5_backward_input_dot_product (N L F : ℕ) (dLdy : ℕ → ℕ → Val) (dydx : ℕ → Val)
    (dLdx0 : ℕ × ℕ → Val) (i j : ℕ) (hi : i < N) (hj : j < 3) :
    (kernel_takikawa_backward_input (N * 3) (L * F) dLdy dydx dLdx0 (j, i) =
      ∑ k ∈ Finset.range (L * F), dLdy k i * dydx (i * (3 * (L * F)) + j * (L * F) + k)) ∧
    (∀ (dLdy2 : ℕ → ℕ → Val) (dydx2 : ℕ → Val) (dLdx02 : ℕ × ℕ → Val),
      (∀ k, k < L * F → dLdy2 k i = dLdy k i) →
      (∀ r, r < 3 * (L * F) → dydx2 (i * (3 * (L * F)) + r) = dydx (i * (3 * (L * F)) + r)) →
      kernel_takikawa_backward_input (N * 3) (L * F) dLdy2 dydx2 dLdx02 (j, i) =
        kernel_takikawa_backward_input (N * 3) (L * F) dLdy dydx dLdx0 (j, i)) := by
  have hM : 3 * i + j < N * 3 := by omega
  have hcell := backward_input_cell (L * F) dLdy dydx dLdx0 (N * 3) i j hM hj
  constructor
  · rw [hcell]
    apply Finset.sum_congr rfl
    intro k _
    congr 1
    ring
  · intro dLdy2 dydx2 dLdx02 h1 h2
    have hcell2 := backward_input_cell (L * F) dLdy2 dydx2 dLdx02 (N * 3) i j hM hj
    rw [hcell, hcell2]
    apply Finset.sum_congr rfl
    intro k hk
    have hk2 : k < L * F := Finset.mem_range.mp hk
    have harg : i * (L * F * 3) + j * (L * F) + k = i * (3 * (L * F)) + (j * (L * F) + k) := by
      ring
    have hr : j * (L * F) + k < 3 * (L * F) := by
      have h5 : (j + 1) * (L * F) ≤ 3 * (L * F) := Nat.mul_le_mul_right _ (by omega)
      have h4 : j * (L * F) + (L * F) = (j + 1) * (L * F) := by ring
      omega
    rw [h1 k hk2, harg, h2 _ hr]

/-- Witness for C5: one sample, one level, two features, with gradient column
(1, 2) and cache r ↦ r: the axis-0 cell is 1·0 + 2·1 = 2. -/
theorem C5_witness :
    kernel_takikawa_backward_input (1 * 3) (1 * 2) (fun k _ => (k : Val) + 1)
      (fun r => (r : Val)) (fun _ => 999) (0, 0) = 2 := by
  have h := (C5_backward_input_dot_product 1 1 2 (fun k _ => (k : Val) + 1)
    (fun r => (r : Val)) (fun _ => 999) 0 0 (by omega) (by omega)).1
  rw [h]
  norm_num [Finset.sum_range_succ]

/-! Evaluation of the backward driver's two active modes on the gradient
target, via the scatter's additivity. -/

theorem backward_impl_params_overwrite_eval (F nLevels starting : ℕ)
    (itype : InterpolationType) (T : ScalarType) (tmpInit : ℕ → Val) (nParams : ℕ)
    (samples : List (List Step × (ℕ → Val))) (grads : ℕ → Val) (k : ℕ)
    (hguard : ¬(F * nLevels = 0 ∨ samples.length = 0)) (hk : k < nParams) :
    backward_impl_params F nLevels starting itype T tmpInit nParams GradientMode.Overwrite
        samples grads k =
      kernel_takikawa_backward_batch F starting itype
        (decide (gradType F T = ScalarType.f16)) samples (fun _ => 0) k := by
  have hF : F ≠ 0 := by intro h; exact hguard (Or.inl (by simp [h]))
  have hnL : nLevels ≠ 0 := by intro h; exact hguard (Or.inl (by simp [h]))
  have hnil : samples ≠ [] := by intro h; exact hguard (Or.inr (by simp [h]))
  by_cases hT : gradType F T = T
  · simp [backward_impl_params, hF, hnL, hnil, hT]
    rw [kernel_backward_batch_shift]
    simp [hk]
  · simp [backward_impl_params, hF, hnL, hnil, hT]
    rw [if_pos hk, kernel_backward_batch_shift]
    simp [hk]

theorem backward_impl_params_add_eval (F nLevels starting : ℕ) (itype : InterpolationType)
    (T : ScalarType) (tmpInit : ℕ → Val) (nParams : ℕ)
    (samples : List (List Step × (ℕ → Val))) (grads : ℕ → Val) (k : ℕ)
    (hguard : ¬(F * nLevels = 0 ∨ samples.length = 0)) (hT : gradType F T = T) :
    backward_impl_params F nLevels starting itype T tmpInit nParams GradientMode.Add
        samples grads k =
      grads k + kernel_takikawa_backward_batch F starting itype
        (decide (gradType F T = ScalarType.f16)) samples (fun _ => 0) k := by
  have hF : F ≠ 0 := by intro h; exact hguard (Or.inl (by simp [h]))
  have hnL : nLevels ≠ 0 := by intro h; exact hguard (Or.inl (by simp [h]))
  have hnil : samples ≠ [] := by intro h; exact hguard (Or.inr (by simp [h]))
  simp [backward_impl_params, hF, hnL, hnil, hT]
  rw [kernel_backward_batch_shift]

/-- C7 (amended): for a non-empty batch and non-zero output width, running
the backward-to-parameters pass twice in Overwrite mode leaves every gradient
slot below n_params equal to the result of running it once; and when the
accumulation type equals the parameter storage type (so the scatter targets
the gradient buffer directly, with no temporary workspace), running it twice
in Add mode from a zeroed buffer leaves exactly double the single run. When a
temporary workspace is used, Add mode folds the unzeroed workspace contents
into the result and the doubling property fails. -/
theorem C7_overwrite_idempotent_add_linear (F nLevels starting : ℕ)
    (itype : InterpolationType) (T : ScalarType) (tmpInit : ℕ → Val) (nParams : ℕ)
    (samples : List (List Step × (ℕ → Val))) (grads : ℕ → Val)
    (hs : samples.length ≠ 0) (hw : F * nLevels ≠ 0) :
    (∀ k, k < nParams →
      backward_impl_params F nLevels starting itype T tmpInit nParams GradientMode.Overwrite
          samples
          (backward_impl_params F nLevels starting itype T tmpInit nParams
            GradientMode.Overwrite samples grads) k =
        backward_impl_params F nLevels starting itype T tmpInit nParams
          GradientMode.Overwrite samples grads k) ∧
    (gradType F T = T →
      ∀ k,
        backward_impl_params F nLevels starting itype T tmpInit nParams GradientMode.Add
            samples
            (backward_impl_params F nLevels starting itype T tmpInit nParams GradientMode.Add
              samples (fun _ => 0)) k =
          2 * backward_impl_params F nLevels starting itype T tmpInit nParams GradientMode.Add
            samples (fun _ => 0) k) := by
  have hguard : ¬(F * nLevels = 0 ∨ samples.length = 0) := by
    push_neg
    exact ⟨hw, hs⟩
  constructor
  · intro k hk
    rw [backward_impl_params_overwrite_eval F nLevels starting itype T tmpInit nParams
      samples _ k hguard hk,
      backward_impl_params_overwrite_eval F nLevels starting itype T tmpInit nParams
      samples grads k hguard hk]
  · intro hT k
    rw [backward_impl_params_add_eval F nLevels starting itype T tmpInit nParams
      samples _ k hguard hT,
      backward_impl_params_add_eval F nLevels starting itype T tmpInit nParams
      samples (fun _ => 0) k hguard hT]
    ring

theorem backward_impl_params_add_tmp_eval (F nLevels starting : ℕ)
    (itype : InterpolationType) (T : ScalarType) (tmpInit : ℕ → Val) (nParams : ℕ)
    (samples : List (List Step × (ℕ → Val))) (grads : ℕ → Val) (k : ℕ)
    (hguard : ¬(F * nLevels = 0 ∨ samples.length = 0)) (hT : ¬gradType F T = T)
    (hk : k < nParams) :
    backward_impl_params F nLevels starting itype T tmpInit nParams GradientMode.Add
        samples grads k =
      tmpInit k + kernel_takikawa_backward_batch F starting itype
        (decide (gradType F T = ScalarType.f16)) samples (fun _ => 0) k := by
  have hF : F ≠ 0 := by intro h; exact hguard (Or.inl (by simp [h]))
  have hnL : nLevels ≠ 0 := by intro h; exact hguard (Or.inl (by simp [h]))
  have hnil : samples ≠ [] := by intro h; exact hguard (Or.inr (by simp [h]))
  simp [backward_impl_params, hF, hnL, hnil, hT]
  rw [if_pos hk, kernel_backward_batch_shift]

/-- C7 (counterexample): with F = 1 and storage type half, the accumulation
type is float, so a temporary — unzeroed — workspace is used (modelled filled
with 1); on a single-sample batch contributing 1 to slot 0, an Add-mode run
from a zeroed gradient buffer yields 2, a second Add-mode run also yields 2,
but double the single run is 4: running twice in Add mode does not double. -/
theorem C7_add_twice_counterexample :
    ¬(backward_impl_params 1 1 0 InterpolationType.Linear ScalarType.f16 (fun _ => 1) 1
        GradientMode.Add c7samples
        (backward_impl_params 1 1 0 InterpolationType.Linear ScalarType.f16 (fun _ => 1) 1
          GradientMode.Add c7samples (fun _ => 0)) 0 =
      2 * backward_impl_params 1 1 0 InterpolationType.Linear ScalarType.f16 (fun _ => 1) 1
        GradientMode.Add c7samples (fun _ => 0) 0) := by
  have hguard : ¬((1 : ℕ) * 1 = 0 ∨ c7samples.length = 0) := by decide
  have hT : ¬gradType 1 ScalarType.f16 = ScalarType.f16 := by decide
  have hC : kernel_takikawa_backward_batch 1 0 InterpolationType.Linear
      (decide (gradType 1 ScalarType.f16 = ScalarType.f16)) c7samples (fun _ => 0) 0 = 1 := by
    rw [show decide (gradType 1 ScalarType.f16 = ScalarType.f16) = false from rfl]
    norm_num [kernel_takikawa_backward_batch, kernel_takikawa_backward, bwdVisit,
      scatterCorner, scatterCornerHalf2, scatterCornerFloat, addAt, cornerWeight, warp,
      c7samples, c7node, finRange_eight_mk, finRange_three_mk, List.range_succ]
    simp +decide
  rw [backward_impl_params_add_tmp_eval 1 1 0 InterpolationType.Linear ScalarType.f16
      (fun _ => 1) 1 c7samples
      (backward_impl_params 1 1 0 InterpolationType.Linear ScalarType.f16 (fun _ => 1) 1
        GradientMode.Add c7samples (fun _ => 0)) 0 hguard hT (by omega),
    backward_impl_params_add_tmp_eval 1 1 0 InterpolationType.Linear ScalarType.f16
      (fun _ => 1) 1 c7samples (fun _ => 0) 0 hguard hT (by omega), hC]
  norm_num

/-- Witness for C7's amended statement at a same-type configuration
(T = float, so the gradient buffer is targeted directly). -/
theorem C7_witness :
    backward_impl_params 1 1 0 InterpolationType.Linear ScalarType.f32 (fun _ => 1) 1
        GradientMode.Overwrite c7samples
        (backward_impl_params 1 1 0 InterpolationType.Linear ScalarType.f32 (fun _ => 1) 1
          GradientMode.Overwrite c7samples (fun _ => 0)) 0 =
      backward_impl_params 1 1 0 InterpolationType.Linear ScalarType.f32 (fun _ => 1) 1
        GradientMode.Overwrite c7samples (fun _ => 0) 0 ∧
    backward_impl_params 1 1 0 InterpolationType.Linear ScalarType.f32 (fun _ => 1) 1
        GradientMode.Add c7samples
        (backward_impl_params 1 1 0 InterpolationType.Linear ScalarType.f32 (fun _ => 1) 1
          GradientMode.Add c7samples (fun _ => 0)) 0 =
      2 * backward_impl_params 1 1 0 InterpolationType.Linear ScalarType.f32 (fun _ => 1) 1
        GradientMode.Add c7samples (fun _ => 0) 0 := by
  have h := C7_overwrite_idempotent_add_linear 1 1 0 InterpolationType.Linear ScalarType.f32
    (fun _ => 1) 1 c7samples (fun _ => 0) (by decide) (by decide)
  exact ⟨h.1 0 (by decide), h.2 (by decide) 0⟩

/-- C9: for a sample whose traversal stops at level d below the requested
depth, the forward pass zero-fills only the output rows of the unreached
levels; their derivative-cache rows are never written and keep whatever the
buffer previously held, and a subsequent backward-to-input pass (here with a
one-hot upstream gradient selecting such a row) reads exactly that stale
value. -/
theorem C9_unreached_cache_stale (F nLevels starting d : ℕ) (itype : InterpolationType)
    (grid : ℕ → Val) (trace : List Step) (s : FwdState)
    (htr : ConsecutiveTrace trace d) (hd : d < starting + nLevels)
    (lvl : ℕ) (hl : lvl < nLevels) (hge : d - starting ≤ lvl)
    (gd : Fin 3) (f : ℕ) (hf : f < F)
    (dLdyM : ℕ → ℕ → Val) (dLdx0 : ℕ × ℕ → Val)
    (honehot : ∀ k, k < F * nLevels → dLdyM k 0 = if k = lvl * F + f then 1 else 0) :
    (kernel_takikawa F nLevels starting itype grid trace d true true s).dydx
        (gd.val * (F * nLevels) + lvl * F + f) =
      s.dydx (gd.val * (F * nLevels) + lvl * F + f) ∧
    (kernel_takikawa F nLevels starting itype grid trace d true true s).out (lvl * F + f)
      = 0 ∧
    kernel_takikawa_backward_input (1 * 3) (F * nLevels) dLdyM
        (kernel_takikawa F nLevels starting itype grid trace d true true s).dydx dLdx0
        (gd.val, 0) =
      s.dydx (gd.val * (F * nLevels) + lvl * F + f) := by
  obtain ⟨hlen, hlev⟩ := htr
  have hk0 : lvl * F + f < F * nLevels := by
    have h2 : (lvl + 1) * F ≤ nLevels * F := Nat.mul_le_mul_right F (by omega)
    have h3 : lvl * F + F = (lvl + 1) * F := by ring
    have h4 : nLevels * F = F * nLevels := Nat.mul_comm _ _
    omega
  have hdx : (kernel_takikawa F nLevels starting itype grid trace d true true s).dydx =
      (trace.foldl (fwdVisit F nLevels starting itype grid true true) s).dydx := rfl
  have h1 : (kernel_takikawa F nLevels starting itype grid trace d true true s).dydx
      (gd.val * (F * nLevels) + lvl * F + f) =
      s.dydx (gd.val * (F * nLevels) + lvl * F + f) := by
    rw [hdx]
    apply fold_dydx_row_untouched
    intro st hst
    obtain ⟨n, hn⟩ := List.mem_iff_get.mp hst
    have hlvst : st.level = n.val := by rw [← hn]; exact hlev n
    have hnd : n.val < d := by have := n.isLt; omega
    by_cases hss : st.level < starting
    · exact Or.inl hss
    · right
      intro gd2
      exact row_disjoint F nLevels lvl (st.level - starting) f gd gd2 hf hl
        (by omega) (by omega)
  refine ⟨h1, ?_, ?_⟩
  · have hker : (kernel_takikawa F nLevels starting itype grid trace d true true s).out =
        zeroFill ((trace.foldl (fwdVisit F nLevels starting itype grid true true) s).out)
          F nLevels (d - starting) := rfl
    rw [hker]
    unfold zeroFill
    have h2 : (d - starting) * F ≤ lvl * F := Nat.mul_le_mul_right F hge
    have h3 : (lvl + 1) * F ≤ nLevels * F := Nat.mul_le_mul_right F (by omega)
    have h4 : lvl * F + F = (lvl + 1) * F := by ring
    have h5 : nLevels * F = F * nLevels := Nat.mul_comm _ _
    rw [if_pos (by omega)]
  · have hcell := backward_input_cell (F * nLevels) dLdyM
      (kernel_takikawa F nLevels starting itype grid trace d true true s).dydx dLdx0
      (1 * 3) 0 gd.val (by omega) gd.isLt
    rw [hcell]
    have hsum : ∀ k ∈ Finset.range (F * nLevels),
        dLdyM k 0 *
          (kernel_takikawa F nLevels starting itype grid trace d true true s).dydx
            (0 * (F * nLevels * 3) + gd.val * (F * nLevels) + k) =
        (if k = lvl * F + f then
          (kernel_takikawa F nLevels starting itype grid trace d true true s).dydx
            (gd.val * (F * nLevels) + k)
         else 0) := by
      intro k hk
      rw [honehot k (Finset.mem_range.mp hk)]
      have harg : 0 * (F * nLevels * 3) + gd.val * (F * nLevels) + k =
          gd.val * (F * nLevels) + k := by omega
      rw [harg]
      split
      · rw [one_mul]
      · rw [zero_mul]
    rw [Finset.sum_congr rfl hsum, Finset.sum_ite_eq' (Finset.range (F * nLevels))
      (lvl * F + f)
      (fun k => (kernel_takikawa F nLevels starting itype grid trace d true true s).dydx
        (gd.val * (F * nLevels) + k)),
      if_pos (Finset.mem_range.mpr hk0), ← Nat.add_assoc]
    exact h1

/-- Witness for C9: a traversal that reached nothing (empty trace, final
level 0) leaves the cache row at its prior value 2000, zero-fills the output
row, and the backward-to-input pass with a one-hot gradient returns the
stale 2000. -/
theorem C9_witness :
    (kernel_takikawa 1 1 0 InterpolationType.Linear wGrid ([] : List Step) 0 true true
      wState).dydx 0 = 2000 ∧
    (kernel_takikawa 1 1 0 InterpolationType.Linear wGrid ([] : List Step) 0 true true
      wState).out 0 = 0 ∧
    kernel_takikawa_backward_input (1 * 3) (1 * 1) (fun k _ => if k = 0 then 1 else 0)
      (kernel_takikawa 1 1 0 InterpolationType.Linear wGrid ([] : List Step) 0 true true
        wState).dydx (fun _ => 999) (0, 0) = 2000 := by
  have h := C9_unreached_cache_stale 1 1 0 0 InterpolationType.Linear wGrid [] wState
    ⟨rfl, by decide⟩ (by omega) 0 (by omega) (by omega) 0 0 (by omega)
    (fun k _ => if k = 0 then 1 else 0) (fun _ => 999)
    (by
      intro k hk
      have hk0 : k = 0 := by omega
      subst hk0
      rfl)
  exact ⟨h.1, h.2.1, h.2.2⟩

/-- C10: forward with a null output matrix but input gradients requested
still runs the kernel: the output buffer is untouched while the derivative
cache is produced exactly as it would be with an output matrix; when the
traversal reaches every requested level, every cache row of the sample is
written, independently of the cache's prior contents; and forward with a
null output and no input-gradient request, or with zero output width, does
no work at all. -/
theorem C10_null_output_forward (F nLevels starting : ℕ) (itype : InterpolationType)
    (grid : ℕ → Val) (trace : List Step) (d : ℕ) (s : FwdState)
    (hfull : ConsecutiveTrace trace (starting + nLevels)) :
    ((forward_impl F nLevels starting itype grid false true trace d s).out = s.out) ∧
    ((forward_impl F nLevels starting itype grid false true trace d s).dydx =
      (forward_impl F nLevels starting itype grid true true trace d s).dydx) ∧
    (∀ r, r < 3 * (F * nLevels) → ∀ (o1 o2 c1 c2 : ℕ → Val),
      (forward_impl F nLevels starting itype grid false true trace d ⟨o1, c1⟩).dydx r =
        (forward_impl F nLevels starting itype grid false true trace d ⟨o2, c2⟩).dydx r) ∧
    (forward_impl F nLevels starting itype grid false false trace d s = s) ∧
    (∀ (F2 nLevels2 : ℕ) (b1 b2 : Bool), F2 * nLevels2 = 0 →
      forward_impl F2 nLevels2 starting itype grid b1 b2 trace d s = s) := by
  obtain ⟨hlen, hlev⟩ := hfull
  have hmono : StrictMonoLevels trace := by
    intro a b hab
    rw [hlev a, hlev b]
    exact hab
  have hbound : ∀ m (hm : m < trace.length),
      (trace.get ⟨m, hm⟩).level < starting + nLevels := by
    intro m hm
    have h1 : (trace.get ⟨m, hm⟩).level = m := hlev ⟨m, hm⟩
    omega
  have hred : ∀ (hnf : F * nLevels ≠ 0) (st : FwdState),
      forward_impl F nLevels starting itype grid false true trace d st =
        trace.foldl (fwdVisit F nLevels starting itype grid false true) st := by
    intro hnf st
    unfold forward_impl
    rw [if_neg (by simp [hnf])]
    unfold kernel_takikawa
    rfl
  refine ⟨?_, ?_, ?_, ?_, ?_⟩
  · by_cases hnf : F * nLevels = 0
    · unfold forward_impl
      rw [if_pos (Or.inr hnf)]
    · rw [hred hnf s]
      funext k
      exact fold_out_hasOut_false F nLevels starting itype grid true trace s ▸ rfl
  · by_cases hnf : F * nLevels = 0
    · unfold forward_impl
      rw [if_pos (Or.inr hnf), if_pos (Or.inr hnf)]
    · rw [hred hnf s]
      have hker2 : (forward_impl F nLevels starting itype grid true true trace d s).dydx =
          (trace.foldl (fwdVisit F nLevels starting itype grid true true) s).dydx := by
        unfold forward_impl
        rw [if_neg (by simp [hnf])]
        rfl
      rw [hker2]
      funext r
      exact congrFun (congrArg FwdState.dydx
        (rfl : trace.foldl (fwdVisit F nLevels starting itype grid false true) s =
          trace.foldl (fwdVisit F nLevels starting itype grid false true) s)) r ▸
        fold_dydx_congr F nLevels starting itype grid false true trace s s rfl ▸ rfl
  · intro r hr o1 o2 c1 c2
    have hnf : 0 < F * nLevels := by
      rcases Nat.eq_zero_or_pos (F * nLevels) with h | h
      · rw [h, Nat.mul_zero] at hr
        omega
      · exact h
    have hF : 0 < F := by
      rcases Nat.eq_zero_or_pos F with h | h
      · rw [h, Nat.zero_mul] at hnf
        omega
      · exact h
    have e1 : F * nLevels * (r / (F * nLevels)) + r % (F * nLevels) = r :=
      Nat.div_add_mod r (F * nLevels)
    have e2 : F * (r % (F * nLevels) / F) + r % (F * nLevels) % F = r % (F * nLevels) :=
      Nat.div_add_mod _ F
    have hgd3 : r / (F * nLevels) < 3 :=
      Nat.div_lt_of_lt_mul (by rw [Nat.mul_comm]; exact hr)
    have hremlt : r % (F * nLevels) < F * nLevels := Nat.mod_lt _ hnf
    have hlvlb : r % (F * nLevels) / F < nLevels := Nat.div_lt_of_lt_mul hremlt
    have hfb : r % (F * nLevels) % F < F := Nat.mod_lt _ hF
    have cm1 : F * nLevels * (r / (F * nLevels)) = r / (F * nLevels) * (F * nLevels) :=
      Nat.mul_comm _ _
    have cm2 : F * (r % (F * nLevels) / F) = r % (F * nLevels) / F * F := Nat.mul_comm _ _
    have hj : starting + r % (F * nLevels) / F < trace.length := by omega
    have hlevj : (trace.get ⟨starting + r % (F * nLevels) / F, hj⟩).level =
        starting + r % (F * nLevels) / F := hlev _
    have hstart : starting ≤ (trace.get ⟨starting + r % (F * nLevels) / F, hj⟩).level := by
      rw [hlevj]
      exact Nat.le_add_right _ _
    have hvv : (⟨r / (F * nLevels), hgd3⟩ : Fin 3).val = r / (F * nLevels) := rfl
    have hsubl : (trace.get ⟨starting + r % (F * nLevels) / F, hj⟩).level - starting =
        r % (F * nLevels) / F := by
      rw [hlevj]
      omega
    have hrw : r = (⟨r / (F * nLevels), hgd3⟩ : Fin 3).val * (F * nLevels) +
        ((trace.get ⟨starting + r % (F * nLevels) / F, hj⟩).level - starting) * F +
        r % (F * nLevels) % F := by
      rw [hvv, hsubl]
      omega
    rw [hred (by omega) ⟨o1, c1⟩, hred (by omega) ⟨o2, c2⟩]
    conv_lhs => rw [hrw]
    conv_rhs => rw [hrw]
    rw [fold_dydx_write F nLevels starting itype grid false trace ⟨o1, c1⟩
        (starting + r % (F * nLevels) / F) hj hmono hbound hstart
        ⟨r / (F * nLevels), hgd3⟩ (r % (F * nLevels) % F) hfb,
      fold_dydx_write F nLevels starting itype grid false trace ⟨o2, c2⟩
        (starting + r % (F * nLevels) / F) hj hmono hbound hstart
        ⟨r / (F * nLevels), hgd3⟩ (r % (F * nLevels) % F) hfb]
  · rfl
  · intro F2 nLevels2 b1 b2 h
    unfold forward_impl
    rw [if_pos (Or.inr h)]

/-- Witness for C10 at a concrete full one-level traversal. -/
theorem C10_witness :
    (forward_impl 1 1 0 InterpolationType.Linear wGrid false true [wStep0] 1 wState).out 0
      = 1000 ∧
    (forward_impl 1 1 0 InterpolationType.Linear wGrid false true [wStep0] 1
        ⟨wState.out, fun _ => 5⟩).dydx 0 =
      (forward_impl 1 1 0 InterpolationType.Linear wGrid false true [wStep0] 1
        ⟨wState.out, fun _ => 7⟩).dydx 0 := by
  have h := C10_null_output_forward 1 1 0 InterpolationType.Linear wGrid [wStep0] 1 wState
    ⟨rfl, by decide⟩
  refine ⟨?_, h.2.2.1 0 (by norm_num) wState.out wState.out (fun _ => 5) (fun _ => 7)⟩
  rw [congrFun h.1 0]
  rfl

end ngp
